import Mathlib

/-!
Shallow embedding of src/app.py: a Flask service that resolves a collectible
card query to a cardmarket product URL and extracts two price signals from the
resulting HTML.

Modelling conventions.

URL query strings are represented by their decoded (name, value) pair
sequences.  quote_plus and unquote_plus form a bijection between a decoded
pair and its wire form, so parse_qs becomes "group the pairs by name, in
first-occurrence order, dropping pairs with an empty value" (keep_blank_values
defaults to False) and urlencode(..., doseq=True) becomes the flattening of
the grouped mapping.  A urlparse six-tuple is the structure URLRec; urlString
plays the role of urlunparse, the query component being re-encoded pair by
pair.

HTML documents (BeautifulSoup trees) are the inductive Node; tag names and
class attribute lists are carried explicitly.  get_text(" ", strip=True),
find(string=...), find_all and the parent chain walk are modelled by
structural recursion; the search for a text node returns its ancestor chain
(innermost ancestor first, document root last) alongside the string.

str.casefold is modelled as ASCII lowercasing, str.strip strips the ASCII
whitespace characters, and the regex classes for digits and spaces are their
ASCII readings; the anchors and documents of interest only exercise these.
re.search with the fixed pattern PRICE_REGEX is implemented as a backtracking
matcher specialised to that pattern, alternatives and quantifiers tried in
the preference order of the Python engine.

Python exceptions are PyExc; SystemExit derives from BaseException and not
from Exception, which the except-Exception handler of the route respects.
The HTTP transport is abstracted: a search response carries its final URL,
its status code and the results of the three select_one queries used by
find_product_url (hrefs already resolved against the base origin, as urljoin
would).
-/

/-- Substring test on character lists: does the first list occur as a
contiguous infix of the second? -/
def isInfixOfB (p : List Char) : List Char → Bool
  | [] => p.isEmpty
  | c :: t => p.isPrefixOf (c :: t) || isInfixOfB p t

/-- The Python membership test needle in hay on strings. -/
def strContains (hay needle : String) : Bool :=
  isInfixOfB needle.toList hay.toList

/-- str.casefold, modelled as ASCII lowercasing (Char.toLower leaves
non-ASCII characters unchanged). -/
def casefold (s : String) : String := String.mk (s.toList.map Char.toLower)

/-- ASCII whitespace as stripped by str.strip and matched by the regex space
class. -/
def isPySpace (c : Char) : Bool :=
  c = ' ' || c = '\t' || c = '\n' || c = '\r' || c = '\x0b' || c = '\x0c'

/-- str.strip on a character list. -/
def stripChars (l : List Char) : List Char :=
  ((l.dropWhile isPySpace).reverse.dropWhile isPySpace).reverse

/-- str.strip. -/
def pyStrip (s : String) : String := String.mk (stripChars s.toList)

/-! ### Query strings and filter composition -/

/-- Grouped query mapping: parameter name to its list of values, keys in
first-occurrence order (the shape parse_qs returns; Python dicts preserve
insertion order). -/
abbrev QDict := List (String × List String)

/-- Append value v under key k, extending the existing entry in place or
creating the key at the end when absent (how parse_qs accumulates repeated
parameters). -/
def insertPair : QDict → String → String → QDict
  | [], k, v => [(k, [v])]
  | (k1, vs) :: rest, k, v =>
    if k1 = k then (k1, vs ++ [v]) :: rest else (k1, vs) :: insertPair rest k v

/-- urllib.parse.parse_qs on the decoded pair sequence: group by name,
dropping pairs whose value is empty. -/
def parse_qs (q : List (String × String)) : QDict :=
  q.foldl (fun d p => if p.2 = "" then d else insertPair d p.1 p.2) []

/-- The dict assignment query[k] = [v] of add_filters: replace the value list
of an existing key in place, else append the key at the end. -/
def setKey : QDict → String → String → QDict
  | [], k, v => [(k, [v])]
  | (k1, vs) :: rest, k, v =>
    if k1 = k then (k1, [v]) :: rest else (k1, vs) :: setKey rest k v

/-- The for-loop of add_filters over filters.items(). -/
def applyFilters (d : QDict) (filters : List (String × String)) : QDict :=
  filters.foldl (fun d p => setKey d p.1 p.2) d

/-- urlencode(query, doseq=True) at the decoded level: one pair per value,
keys in mapping order. -/
def urlencode_doseq : QDict → List (String × String)
  | [] => []
  | (k, vs) :: rest => vs.map (fun v => (k, v)) ++ urlencode_doseq rest

/-- The urlparse six-tuple; the query component is kept in decoded pair
form. -/
structure URLRec where
  scheme : String
  netloc : String
  path : String
  params : String
  query : List (String × String)
  fragment : String
deriving DecidableEq

/-- urlunparse, the query pairs re-encoded as name=value joined by
ampersands. -/
def urlString (u : URLRec) : String :=
  u.scheme ++ "://" ++ u.netloc ++ u.path
    ++ (if u.params = "" then "" else ";" ++ u.params)
    ++ (if u.query.isEmpty then "" else
          "?" ++ String.intercalate "&" (u.query.map (fun p => p.1 ++ "=" ++ p.2)))
    ++ (if u.fragment = "" then "" else "#" ++ u.fragment)

/-- add_filters from app.py: parse the query string into a mapping from name
to value list, overwrite each filter name with the single filter value,
re-encode. -/
def add_filters (u : URLRec) (filters : List (String × String)) : URLRec :=
  { u with query := urlencode_doseq (applyFilters (parse_qs u.query) filters) }

def DEFAULT_FILTERS : List (String × String) :=
  [("sellerCountry", "12"), ("language", "2"), ("minCondition", "2")]

/-- The median_filters dict local to get_prices_for_query. -/
def median_filters : List (String × String) :=
  [("sellerCountry", "12"), ("sellerType", "1"), ("language", "2"), ("minCondition", "2")]

/-- Keys of a grouped query mapping, in order. -/
def qKeys (d : QDict) : List String := d.map Prod.fst

/-- Value list of a key in a grouped mapping (empty when absent). -/
def lookupVs (d : QDict) (k : String) : List String :=
  match d.find? (fun e => e.1 == k) with
  | some e => e.2
  | none => []

/-- Well-formedness of the value lists of a grouped mapping: every entry is a
nonempty list of nonempty values.  parse_qs output satisfies this, and it is
what makes re-parsing the encoded query the identity. -/
def qValsOK (d : QDict) : Prop := ∀ e ∈ d, e.2 ≠ [] ∧ ∀ v ∈ e.2, v ≠ ""

/-! ### The price regex

PRICE_REGEX is, in the original notation, a group of two alternatives (one to
three digits followed by any number of thousands groups, or a plain digit
run), an optional decimal group of a separator and two digits, any spaces and
the euro sign.  search scans left to right and returns the first match. -/

/-- ASCII decimal digit, the reading of the regex digit class here. -/
def isDigitC (c : Char) : Bool := c.isDigit

/-- Match the final spaces-then-euro part of the pattern at the head of the
list.  The euro sign is not itself whitespace, so the greedy space run is
deterministic.  Returns the consumed length. -/
def matchSpacesEuro (rest : List Char) : Option Nat :=
  let sp := (rest.takeWhile isPySpace).length
  match rest.drop sp with
  | c :: _ => if c = '€' then some (sp + 1) else none
  | [] => none

/-- Match the optional decimal group (separator and two digits) followed by
spaces and the euro sign, preferring the group present, backtracking to
absent. -/
def matchTail (rest : List Char) : Option Nat :=
  let withGroup : Option Nat :=
    match rest with
    | c :: d1 :: d2 :: rest2 =>
      if (c = ',' || c = '.') && isDigitC d1 && isDigitC d2 then
        (matchSpacesEuro rest2).map (· + 3)
      else none
    | _ => none
  match withGroup with
  | some n => some n
  | none => matchSpacesEuro rest

/-- Match the starred thousands group (separator and three digits, any number
of times) and then the tail, trying more repetitions first (greedy star with
backtracking). -/
def matchStarThenTail : List Char → Option Nat
  | c :: d1 :: d2 :: d3 :: rest =>
    if (c = ',' || c = '.') && isDigitC d1 && isDigitC d2 && isDigitC d3 then
      match matchStarThenTail rest with
      | some n => some (n + 4)
      | none => matchTail (c :: d1 :: d2 :: d3 :: rest)
    else matchTail (c :: d1 :: d2 :: d3 :: rest)
  | l => matchTail l

/-- Attempt the first alternative with exactly k leading digits. -/
def tryDigitsPrefix (l : List Char) (k : Nat) : Option Nat :=
  if ((l.take k).length = k) && (l.take k).all isDigitC then
    (matchStarThenTail (l.drop k)).map (· + k)
  else none

/-- First alternative of the pattern: one to three digits then the thousands
groups, digit counts tried greedily (three, two, one). -/
def matchAltA (l : List Char) : Option Nat :=
  match tryDigitsPrefix l 3 with
  | some n => some n
  | none =>
    match tryDigitsPrefix l 2 with
    | some n => some n
    | none => tryDigitsPrefix l 1

/-- Backtracking over the digit run of the second alternative, from k digits
downwards. -/
def tryDigitsRun (l : List Char) : Nat → Option Nat
  | 0 => none
  | k + 1 =>
    match (matchTail (l.drop (k + 1))).map (· + (k + 1)) with
    | some n => some n
    | none => tryDigitsRun l k

/-- Second alternative: a plain digit run, greedy with backtracking. -/
def matchAltB (l : List Char) : Option Nat :=
  tryDigitsRun l (l.takeWhile isDigitC).length

/-- PRICE_REGEX matched at this exact position; returns the match length. -/
def matchPriceAt (l : List Char) : Option Nat :=
  match matchAltA l with
  | some n => some n
  | none => matchAltB l

/-- re.search: first position where the pattern matches, returning the
matched substring (group zero). -/
def pySearchList : List Char → Option String
  | [] => none
  | c :: t =>
    match matchPriceAt (c :: t) with
    | some n => some (String.mk ((c :: t).take n))
    | none => pySearchList t

/-- PRICE_REGEX.search(s), with the matched text of the result. -/
def priceSearch (s : String) : Option String := pySearchList s.toList

/-! ### Documents -/

/-- A BeautifulSoup node: a NavigableString, or a Tag with its name, class
attribute list and children.  A parsed document is a Node whose root is the
synthetic document element. -/
inductive Node where
  | text (s : String)
  | elem (tag : String) (classes : List String) (children : List Node)

mutual
/-- All descendant strings of a node in document order. -/
def nodeStrings : Node → List String
  | .text s => [s]
  | .elem _ _ ch => forestStrings ch
/-- All strings of a list of nodes in document order. -/
def forestStrings : List Node → List String
  | [] => []
  | n :: ns => nodeStrings n ++ forestStrings ns
end

/-- Tag.get_text(" ", strip=True): strip each descendant string, drop the
ones that become empty, join with single spaces. -/
def get_text (n : Node) : String :=
  String.intercalate " " (((nodeStrings n).map pyStrip).filter (fun s => !(s == "")))

mutual
/-- soup.find(string=p): the first text node in document order whose content
satisfies p, together with its ancestor chain (parent first, root last). -/
def findStr (p : String → Bool) : Node → List Node → Option (String × List Node)
  | .text s, anc => if p s then some (s, anc) else none
  | .elem t c ch, anc => findStrF p ch (.elem t c ch :: anc)
/-- findStr over a list of siblings sharing the ancestor chain anc. -/
def findStrF (p : String → Bool) : List Node → List Node → Option (String × List Node)
  | [], _ => none
  | n :: ns, anc =>
    match findStr p n anc with
    | some r => some r
    | none => findStrF p ns anc
end

/-- smallest_common_ancestor_with_keywords from app.py: walk the parent chain
upwards and return the first node whose visible text, casefolded, contains
one of the keywords. -/
def smallest_common_ancestor_with_keywords (chain : List Node) (keywords : List String) :
    Option Node :=
  chain.find? (fun c => keywords.any (fun kw => strContains (casefold (get_text c)) kw))

def PRICE_TREND_ANCHORS : List String :=
  ["tendance des prix", "prix moyen", "articles disponibles",
   "price trend", "average price", "available items",
   "preistrend", "durchschnittspreis", "verfügbare artikel",
   "andamento del prezzo", "prezzo medio", "articoli disponibili",
   "tendencia de precios", "precio medio", "artículos disponibles",
   "prijstrend", "gemiddelde prijs", "beschikbare artikelen"]

/-- One iteration of the anchor loop of extract_lowest_price: find the first
text node containing the anchor (casefolded), narrow to the bounded
container, collect the trimmed regex matches of its euro-marked strings and
return the first; none when the anchor is absent or the container holds no
price. -/
def anchor_attempt (root : Node) (anchor : String) : Option String :=
  match findStr (fun t => strContains (casefold t) anchor) root [] with
  | none => none
  | some (s, chain) =>
    let container :=
      match smallest_common_ancestor_with_keywords chain PRICE_TREND_ANCHORS with
      | some c => c
      | none => chain.headD (.text s)
    (((nodeStrings container).filter (fun t => strContains t "€")).filterMap
      (fun t => (priceSearch t).map pyStrip)).head?

/-- The anchor loop of extract_lowest_price over the anchor list. -/
def loopAnchors (root : Node) : List String → Option String
  | [] => none
  | a :: rest =>
    match anchor_attempt root a with
    | some p => some p
    | none => loopAnchors root rest

/-- The document-wide fallback scan of extract_lowest_price: the first
euro-marked string on which the pattern matches, the match trimmed. -/
def scanPrices : List String → Option String
  | [] => none
  | t :: rest =>
    if strContains t "€" then
      match priceSearch t with
      | some m => some (pyStrip m)
      | none => scanPrices rest
    else scanPrices rest

/-- extract_lowest_price from app.py; the Python None becomes Option.none. -/
def extract_lowest_price (root : Node) : Option String :=
  match loopAnchors root PRICE_TREND_ANCHORS with
  | some p => some p
  | none => scanPrices (nodeStrings root)

/-- Does a node match find_all("div", class_=cls)? -/
def nodeMatchesDiv (cls : String) : Node → Bool
  | .elem t cs _ => t == "div" && cs.contains cls
  | .text _ => false

mutual
/-- soup.find("div", class_=cls): the first matching descendant in document
order (the node itself is not considered, as in BeautifulSoup). -/
def findDiv (cls : String) : Node → Option Node
  | .text _ => none
  | .elem _ _ ch => findDivF cls ch
/-- findDiv over a sibling list. -/
def findDivF (cls : String) : List Node → Option Node
  | [] => none
  | n :: ns =>
    match (if nodeMatchesDiv cls n then some n else findDiv cls n) with
    | some r => some r
    | none => findDivF cls ns
end

mutual
/-- container.find_all("div", class_=cls): all matching descendants in
document order. -/
def descendantDivs (cls : String) : Node → List Node
  | .text _ => []
  | .elem _ _ ch => descendantDivsF cls ch
/-- descendantDivs over a sibling list. -/
def descendantDivsF (cls : String) : List Node → List Node
  | [] => []
  | n :: ns =>
    ((if nodeMatchesDiv cls n then [n] else []) ++ descendantDivs cls n)
      ++ descendantDivsF cls ns
end

/-- container.find_all("div", recursive=False): the direct children that are
div tags. -/
def direct_child_divs : Node → List Node
  | .text _ => []
  | .elem _ _ ch =>
    ch.filter (fun n => match n with | .elem t _ _ => t == "div" | .text _ => false)

/-- Tag.stripped_strings: the descendant strings stripped, empties skipped. -/
def stripped_strings (n : Node) : List String :=
  ((nodeStrings n).map pyStrip).filter (fun s => !(s == ""))

/-- The median row index (len(rows) + 1) // 2 - 1 with the clamp to zero,
exactly as computed in extract_median_price (the Python floor division runs
on nonnegative operands here, so truncating Int division agrees). -/
def median_index_of (n : Nat) : Nat :=
  let i : Int := ((n : Int) + 1) / 2 - 1
  if i < 0 then 0 else i.toNat

/-- extract_median_price from app.py.  The row indexing rows[median_index] is
made total via getD; claim C9 shows the index is always in bounds. -/
def extract_median_price (root : Node) : Option String :=
  match findDiv "table-body" root with
  | none => none
  | some offers_container =>
    let rows0 := direct_child_divs offers_container
    let rows := if rows0.isEmpty then descendantDivs "article-row" offers_container else rows0
    if rows.isEmpty then none
    else
      let median_row := rows.getD (median_index_of rows.length) (.text "")
      (((stripped_strings median_row).filter (fun s => strContains s "€")).map pyStrip).head?

/-! ### Locator, orchestrator and route -/

/-- Python exceptions raised by the pipeline. -/
inductive PyExc where
  | systemExit (msg : String)
  | runtimeError (msg : String)
  | httpError (msg : String)
deriving DecidableEq

/-- Membership in the Python Exception class: SystemExit derives from
BaseException only, so an except-Exception clause does not catch it. -/
def PyExc.isException : PyExc → Bool
  | .systemExit _ => false
  | .runtimeError _ => true
  | .httpError _ => true

/-- str(e), the human-readable message. -/
def PyExc.message : PyExc → String
  | .systemExit m => m
  | .runtimeError m => m
  | .httpError m => m

/-- The search GET result consumed by find_product_url: final URL after
redirects, status code, and the results of the three select_one queries on
the body (hrefs already resolved against the base origin; none when a
selector finds nothing). -/
structure Response where
  url : URLRec
  status_code : Nat
  sel_table : Option URLRec
  sel_div : Option URLRec
  sel_any : Option URLRec
deriving DecidableEq

def PRODUCT_PATH_PATTERN : String := "/Products/Singles/"

/-- The steps of find_product_url after the immediate-return check: the 403
guard raising SystemExit, raise_for_status for other error statuses, then
the three selector fallbacks, else the not-found RuntimeError. -/
def locate_in_body (card_id : String) (r : Response) : Except PyExc URLRec :=
  if r.status_code = 403 then
    .error (.systemExit "403 Forbidden : accès bloqué.")
  else if 400 ≤ r.status_code ∧ r.status_code < 600 then
    .error (.httpError ("HTTP error " ++ toString r.status_code))
  else
    match r.sel_table with
    | some u => .ok u
    | none =>
      match r.sel_div with
      | some u => .ok u
      | none =>
        match r.sel_any with
        | some u => .ok u
        | none =>
          .error (.runtimeError ("Aucun produit trouvé pour \x27" ++ card_id ++ "\x27."))

/-- find_product_url from app.py.  The immediate-return test is a substring
test on the whole final URL string, not on its path component. -/
def find_product_url (card_id : String) (r : Response) : Except PyExc URLRec :=
  if strContains (urlString r.url) PRODUCT_PATH_PATTERN then .ok r.url
  else locate_in_body card_id r

/-- The Python expression x or "N/A" on an optional string: None and the
empty string both become the sentinel. -/
def py_or_na : Option String → String
  | none => "N/A"
  | some s => if s = "" then "N/A" else s

/-- get_prices_for_query: locate the product, compose the two filter sets,
fetch each filtered page and run the matching extractor.  The transport is
the search response plus a fetch oracle from URL strings to parsed
documents. -/
def get_prices_for_query (card_id : String) (search_response : Response)
    (fetch : String → Node) : Except PyExc (String × String × String) :=
  match find_product_url card_id search_response with
  | .error e => .error e
  | .ok product_url =>
    let filtered_url := add_filters product_url DEFAULT_FILTERS
    let lowest := extract_lowest_price (fetch (urlString filtered_url))
    let median_url := add_filters product_url median_filters
    let median := extract_median_price (fetch (urlString median_url))
    .ok (py_or_na lowest, py_or_na median, urlString filtered_url)

/-- data.get(k) on a JSON object with string fields. -/
def jsonGet (data : List (String × String)) (k : String) : Option String :=
  (data.find? (fun p => p.1 == k)).map (fun p => p.2)

/-- The POST getPrices route: 400 when the query field is missing or empty,
200 with the triple on success, 500 for failures caught by except Exception.
A SystemExit escapes the handler entirely, modelled as Except.error: no HTTP
response is produced by the route. -/
def get_prices_route (pipeline : String → Except PyExc (String × String × String))
    (data : List (String × String)) : Except PyExc (Nat × List (String × String)) :=
  match jsonGet data "query" with
  | none => .ok (400, [("error", "Missing \x27query\x27 field")])
  | some q =>
    if q = "" then .ok (400, [("error", "Missing \x27query\x27 field")])
    else
      match pipeline q with
      | .ok t => .ok (200, [("lowest", t.1), ("median", t.2.1), ("url", t.2.2)])
      | .error e =>
        if e.isException then .ok (500, [("error", e.message)])
        else .error e

/-! ### Concrete instances used by individual claims -/

/-- Claim C3: a product URL whose query carries a parameter with an empty
value (wire form a=) next to an ordinary one. -/
def c3_url : URLRec :=
  { scheme := "https", netloc := "www.cardmarket.com",
    path := "/fr/Pokemon/Products/Singles/Base/Charizard",
    params := "", query := [("a", ""), ("b", "2")], fragment := "" }

/-- Witness URL for the amended claim C3: the query a=1, b=2 from the spec
testable property. -/
def c3_url_w : URLRec :=
  { scheme := "https", netloc := "www.cardmarket.com",
    path := "/fr/Pokemon/Products/Singles/Base/Charizard",
    params := "", query := [("a", "1"), ("b", "2")], fragment := "" }

/-- Claim C5: a product URL with two query parameters, the first of which
collides with a filter carrying an empty value. -/
def c5_url : URLRec :=
  { scheme := "https", netloc := "www.cardmarket.com",
    path := "/fr/Pokemon/Products/Singles/Base/Charizard",
    params := "", query := [("k", "2"), ("a", "1")], fragment := "" }

/-- Claim C6: a document holding both the French and the English price-trend
anchors, where the bounded container of the French one (its parent paragraph)
contains no euro-marked text, while that of the English one does. -/
def c6_doc : Node :=
  .elem "[document]" []
    [.elem "div" []
      [.elem "p" [] [.text "tendance des prix"],
       .elem "p" [] [.text "price trend ", .elem "b" [] [.text "10,50 €"]]]]

/-- Witness document for the amended claim C6: here the container of the
French anchor does contain a price, and a later English-anchored price is
also present. -/
def c6_doc2 : Node :=
  .elem "[document]" []
    [.elem "div" []
      [.elem "p" [] [.text "tendance des prix ", .elem "b" [] [.text "3,00 €"]],
       .elem "p" [] [.text "price trend ", .elem "b" [] [.text "9,99 €"]]]]

/-- Claim C8: a document with no anchor phrase whose only euro-marked text
fragment carries extra words around the price shape. -/
def c8_doc : Node :=
  .elem "[document]" [] [.elem "p" [] [.text "frais: 2,50 €"]]

/-- Claim C1: the final URL of a blocked search (no product-page pattern in
it). -/
def c1_search_url : URLRec :=
  { scheme := "https", netloc := "www.cardmarket.com",
    path := "/fr/Pokemon/Products/Search", params := "",
    query := [("category", "-1"), ("searchString", "Charizard")], fragment := "" }

/-- Claim C1: a search response denied with HTTP 403. -/
def c1_response : Response :=
  { url := c1_search_url, status_code := 403,
    sel_table := none, sel_div := none, sel_any := none }

/-- Claim C7: a final URL whose path does not match the product-page pattern
but whose query string contains it. -/
def c7_url : URLRec :=
  { scheme := "https", netloc := "www.cardmarket.com",
    path := "/fr/Pokemon/Products/Search", params := "",
    query := [("searchString", "/Products/Singles/")], fragment := "" }

/-- Claim C7: the 200 response redirecting to c7_url. -/
def c7_response : Response :=
  { url := c7_url, status_code := 200,
    sel_table := none, sel_div := none, sel_any := none }

/-- Witness for claim C7: a response whose final URL path does match the
pattern. -/
def c7_prod_response : Response :=
  { url := { scheme := "https", netloc := "www.cardmarket.com",
             path := "/fr/Pokemon/Products/Singles/Base/Charizard", params := "",
             query := [], fragment := "" },
    status_code := 200, sel_table := none, sel_div := none, sel_any := none }

/-- Witness for claim C2: a currency-free document that still contains an
anchor phrase. -/
def c2_doc : Node :=
  .elem "[document]" [] [.elem "p" [] [.text "tendance des prix"]]

/-- Witness for claim C2: a search response that resolves immediately. -/
def c2_response : Response :=
  { url := { scheme := "https", netloc := "www.cardmarket.com",
             path := "/fr/Pokemon/Products/Singles/Base/Pikachu", params := "",
             query := [], fragment := "" },
    status_code := 200, sel_table := none, sel_div := none, sel_any := none }

/-- Witness for claim C10: a pipeline that would succeed if it were ever
consulted. -/
def c10_pipeline : String → Except PyExc (String × String × String) :=
  fun _ => .ok ("1,00 €", "2,50 €", "https://www.cardmarket.com/x")

/-! ### Lemmas on grouped query mappings -/

@[simp] theorem qKeys_nil : qKeys [] = [] := rfl

@[simp] theorem qKeys_cons (e : String × List String) (d : QDict) :
    qKeys (e :: d) = e.1 :: qKeys d := rfl

@[simp] theorem lookupVs_nil (k : String) : lookupVs [] k = [] := rfl

theorem lookupVs_cons (e : String × List String) (d : QDict) (k : String) :
    lookupVs (e :: d) k = if e.1 = k then e.2 else lookupVs d k := by
  by_cases h : e.1 = k
  · simp [lookupVs, List.find?_cons_of_pos, h]
  · simp [lookupVs, List.find?_cons, h]

theorem insertPair_cons (k1 : String) (vs : List String) (d : QDict) (k v : String) :
    insertPair ((k1, vs) :: d) k v =
      if k1 = k then (k1, vs ++ [v]) :: d else (k1, vs) :: insertPair d k v := rfl

theorem setKey_cons (k1 : String) (vs : List String) (d : QDict) (k v : String) :
    setKey ((k1, vs) :: d) k v =
      if k1 = k then (k1, [v]) :: d else (k1, vs) :: setKey d k v := rfl

theorem mem_qKeys_insertPair (d : QDict) (k v a : String) :
    a ∈ qKeys (insertPair d k v) ↔ a ∈ qKeys d ∨ a = k := by
  induction d with
  | nil => simp [insertPair]
  | cons e rest ih =>
    obtain ⟨k1, vs⟩ := e
    rw [insertPair_cons]
    by_cases h : k1 = k
    · subst h
      simp
      tauto
    · simp [h, ih]
      tauto

theorem nodup_qKeys_insertPair (d : QDict) (k v : String) (h : (qKeys d).Nodup) :
    (qKeys (insertPair d k v)).Nodup := by
  induction d with
  | nil => simp [insertPair]
  | cons e rest ih =>
    obtain ⟨k1, vs⟩ := e
    simp at h
    rw [insertPair_cons]
    by_cases hk : k1 = k
    · subst hk
      simpa using h
    · simp [hk]
      refine ⟨fun hmem => ?_, ih h.2⟩
      rw [mem_qKeys_insertPair] at hmem
      rcases hmem with hmem | hmem
      · exact h.1 hmem
      · exact hk hmem

theorem lookupVs_insertPair_self (d : QDict) (k v : String) :
    lookupVs (insertPair d k v) k = lookupVs d k ++ [v] := by
  induction d with
  | nil => simp [insertPair, lookupVs_cons]
  | cons e rest ih =>
    obtain ⟨k1, vs⟩ := e
    rw [insertPair_cons]
    by_cases h : k1 = k
    · subst h
      simp [lookupVs_cons]
    · simp [lookupVs_cons, h, ih]

theorem lookupVs_insertPair_ne (d : QDict) (k1 v k : String) (h : ¬ k1 = k) :
    lookupVs (insertPair d k1 v) k = lookupVs d k := by
  induction d with
  | nil => simp [insertPair, lookupVs_cons, h]
  | cons e rest ih =>
    obtain ⟨ka, vs⟩ := e
    rw [insertPair_cons]
    by_cases hk : ka = k1
    · subst hk
      simp [lookupVs_cons, h]
    · simp [hk, lookupVs_cons, ih]

theorem mem_qKeys_setKey (d : QDict) (k v a : String) :
    a ∈ qKeys (setKey d k v) ↔ a ∈ qKeys d ∨ a = k := by
  induction d with
  | nil => simp [setKey]
  | cons e rest ih =>
    obtain ⟨k1, vs⟩ := e
    rw [setKey_cons]
    by_cases h : k1 = k
    · subst h
      simp
      tauto
    · simp [h, ih]
      tauto

theorem nodup_qKeys_setKey (d : QDict) (k v : String) (h : (qKeys d).Nodup) :
    (qKeys (setKey d k v)).Nodup := by
  induction d with
  | nil => simp [setKey]
  | cons e rest ih =>
    obtain ⟨k1, vs⟩ := e
    simp at h
    rw [setKey_cons]
    by_cases hk : k1 = k
    · subst hk
      simpa using h
    · simp [hk]
      refine ⟨fun hmem => ?_, ih h.2⟩
      rw [mem_qKeys_setKey] at hmem
      rcases hmem with hmem | hmem
      · exact h.1 hmem
      · exact hk hmem

theorem lookupVs_setKey_self (d : QDict) (k v : String) :
    lookupVs (setKey d k v) k = [v] := by
  induction d with
  | nil => simp [setKey, lookupVs_cons]
  | cons e rest ih =>
    obtain ⟨k1, vs⟩ := e
    rw [setKey_cons]
    by_cases h : k1 = k
    · subst h
      simp [lookupVs_cons]
    · simp [lookupVs_cons, h, ih]

theorem lookupVs_setKey_ne (d : QDict) (k1 v k : String) (h : ¬ k1 = k) :
    lookupVs (setKey d k1 v) k = lookupVs d k := by
  induction d with
  | nil => simp [setKey, lookupVs_cons, h]
  | cons e rest ih =>
    obtain ⟨ka, vs⟩ := e
    rw [setKey_cons]
    by_cases hk : ka = k1
    · subst hk
      simp [lookupVs_cons, h]
    · simp [hk, lookupVs_cons, ih]

@[simp] theorem applyFilters_nil (d : QDict) : applyFilters d [] = d := rfl

theorem applyFilters_cons (d : QDict) (p : String × String) (fs : List (String × String)) :
    applyFilters d (p :: fs) = applyFilters (setKey d p.1 p.2) fs := rfl

@[simp] theorem urlencode_doseq_nil : urlencode_doseq [] = [] := rfl

@[simp] theorem urlencode_doseq_cons (k : String) (vs : List String) (d : QDict) :
    urlencode_doseq ((k, vs) :: d) = vs.map (fun v => (k, v)) ++ urlencode_doseq d := rfl

theorem parse_qs_loop_lookup (q : List (String × String)) (acc : QDict) (k : String) :
    lookupVs (q.foldl (fun d p => if p.2 = "" then d else insertPair d p.1 p.2) acc) k =
      lookupVs acc k ++ (q.filter (fun p => p.1 == k && !(p.2 == ""))).map Prod.snd := by
  induction q generalizing acc with
  | nil => simp
  | cons p q ih =>
    obtain ⟨k1, v1⟩ := p
    simp only [List.foldl_cons]
    by_cases hv : v1 = ""
    · subst hv
      rw [if_pos rfl, ih]
      simp
  

    · by_cases hk : k1 = k
      · subst hk
        rw [if_neg hv, ih]
        simp [lookupVs_insertPair_self, hv]
      · rw [if_neg hv, ih]
        rw [lookupVs_insertPair_ne _ _ _ _ hk]
        simp [hk]

theorem lookupVs_parse_qs (q : List (String × String)) (k : String) :
    lookupVs (parse_qs q) k =
      (q.filter (fun p => p.1 == k && !(p.2 == ""))).map Prod.snd := by
  have h := parse_qs_loop_lookup q [] k
  simpa [parse_qs] using h

theorem nodup_qKeys_parse_qs_loop (q : List (String × String)) (acc : QDict)
    (h : (qKeys acc).Nodup) :
    (qKeys (q.foldl (fun d p => if p.2 = "" then d else insertPair d p.1 p.2) acc)).Nodup := by
  induction q generalizing acc with
  | nil => simpa
  | cons p q ih =>
    simp only [List.foldl_cons]
    by_cases hv : p.2 = ""
    · rw [if_pos hv]
      exact ih acc h
    · rw [if_neg hv]
      exact ih _ (nodup_qKeys_insertPair _ _ _ h)

theorem nodup_qKeys_parse_qs (q : List (String × String)) : (qKeys (parse_qs q)).Nodup := by
  have h := nodup_qKeys_parse_qs_loop q [] (by simp)
  simpa [parse_qs] using h

theorem lookupVs_applyFilters_notmem (d : QDict) (fs : List (String × String)) (k : String)
    (h : k ∉ fs.map Prod.fst) :
    lookupVs (applyFilters d fs) k = lookupVs d k := by
  induction fs generalizing d with
  | nil => rfl
  | cons p fs ih =>
    rw [List.map_cons, List.mem_cons] at h
    push_neg at h
    rw [applyFilters_cons, ih _ h.2, lookupVs_setKey_ne _ _ _ _ (fun heq => h.1 heq.symm)]

theorem lookupVs_applyFilters_mem (d : QDict) (fs : List (String × String)) (k v : String)
    (hnd : (fs.map Prod.fst).Nodup) (h : (k, v) ∈ fs) :
    lookupVs (applyFilters d fs) k = [v] := by
  induction fs generalizing d with
  | nil => simp at h
  | cons p fs ih =>
    rw [List.map_cons, List.nodup_cons] at hnd
    rw [applyFilters_cons]
    rcases List.mem_cons.mp h with heq | hmem
    · have hp : p.1 = k := by rw [← heq]
      rw [lookupVs_applyFilters_notmem _ _ _ (hp ▸ hnd.1)]
      have hv : p.2 = v := by rw [← heq]
      rw [← hp, ← hv]
      exact lookupVs_setKey_self _ _ _
    · exact ih _ hnd.2 hmem

theorem nodup_qKeys_applyFilters (d : QDict) (fs : List (String × String))
    (h : (qKeys d).Nodup) : (qKeys (applyFilters d fs)).Nodup := by
  induction fs generalizing d with
  | nil => exact h
  | cons p fs ih =>
    rw [applyFilters_cons]
    exact ih _ (nodup_qKeys_setKey _ _ _ h)

theorem fst_mem_qKeys (d : QDict) (k : String) (vs : List String) (h : (k, vs) ∈ d) :
    k ∈ qKeys d :=
  List.mem_map_of_mem Prod.fst h

theorem fst_mem_qKeys_of_mem_urlencode (d : QDict) (p : String × String)
    (h : p ∈ urlencode_doseq d) : p.1 ∈ qKeys d := by
  induction d with
  | nil => simp at h
  | cons e rest ih =>
    obtain ⟨k1, vs⟩ := e
    rw [urlencode_doseq_cons, List.mem_append] at h
    rcases h with h | h
    · rw [List.mem_map] at h
      obtain ⟨v, -, rfl⟩ := h
      simp
    · simp [ih h]

theorem urlencode_filter_not_mem (d : QDict) (k : String) (h : k ∉ qKeys d) :
    (urlencode_doseq d).filter (fun p => p.1 == k) = [] := by
  rw [List.filter_eq_nil_iff]
  intro p hp
  simp only [beq_iff_eq]
  intro heq
  have hm := fst_mem_qKeys_of_mem_urlencode d p hp
  rw [heq] at hm
  exact h hm

theorem urlencode_filter_eq (d : QDict) (k : String) (hnd : (qKeys d).Nodup) :
    (urlencode_doseq d).filter (fun p => p.1 == k) = (lookupVs d k).map (fun v => (k, v)) := by
  induction d with
  | nil => simp
  | cons e rest ih =>
    obtain ⟨k1, vs⟩ := e
    rw [qKeys_cons, List.nodup_cons] at hnd
    rw [urlencode_doseq_cons, List.filter_append, lookupVs_cons]
    by_cases h : k1 = k
    · subst h
      rw [if_pos rfl]
      have h1 : (vs.map (fun v => (k1, v))).filter (fun p => p.1 == k1) =
          vs.map (fun v => (k1, v)) := by
        rw [List.filter_eq_self]
        intro p hp
        rw [List.mem_map] at hp
        obtain ⟨v, -, rfl⟩ := hp
        simp
      rw [h1, urlencode_filter_not_mem rest k1 hnd.1]
      simp
    · rw [if_neg h]
      have h1 : (vs.map (fun v => (k1, v))).filter (fun p => p.1 == k) = [] := by
        rw [List.filter_eq_nil_iff]
        intro p hp
        rw [List.mem_map] at hp
        obtain ⟨v, -, rfl⟩ := hp
        simpa using h
      rw [h1, ih hnd.2]
      simp

theorem qValsOK_cons_tail (e : String × List String) (d : QDict) (h : qValsOK (e :: d)) :
    qValsOK d :=
  fun e1 he1 => h e1 (List.mem_cons_of_mem _ he1)

theorem qValsOK_insertPair (d : QDict) (k v : String) (h : qValsOK d) (hv : v ≠ "") :
    qValsOK (insertPair d k v) := by
  induction d with
  | nil =>
    intro e he
    simp only [insertPair, List.mem_singleton] at he
    subst he
    refine ⟨by simp, ?_⟩
    intro v1 hv1
    rw [List.mem_singleton] at hv1
    subst hv1
    exact hv
  | cons e0 rest ih =>
    obtain ⟨k1, vs⟩ := e0
    have hrest : qValsOK rest := qValsOK_cons_tail _ _ h
    have hhead := h (k1, vs) (List.mem_cons_self _ _)
    rw [insertPair_cons]
    by_cases hk : k1 = k
    · rw [if_pos hk]
      intro e he
      rcases List.mem_cons.mp he with heq | hmem
      · subst heq
        refine ⟨by simp, ?_⟩
        intro v1 hv1
        rcases List.mem_append.mp hv1 with h1 | h1
        · exact hhead.2 v1 h1
        · rw [List.mem_singleton] at h1
          subst h1
          exact hv
      · exact hrest e hmem
    · rw [if_neg hk]
      intro e he
      rcases List.mem_cons.mp he with heq | hmem
      · subst heq
        exact hhead
      · exact ih hrest e hmem

theorem qValsOK_parse_qs_loop (q : List (String × String)) (acc : QDict) (h : qValsOK acc) :
    qValsOK (q.foldl (fun d p => if p.2 = "" then d else insertPair d p.1 p.2) acc) := by
  induction q generalizing acc with
  | nil => exact h
  | cons p q ih =>
    simp only [List.foldl_cons]
    by_cases hv : p.2 = ""
    · rw [if_pos hv]
      exact ih acc h
    · rw [if_neg hv]
      exact ih _ (qValsOK_insertPair _ _ _ h hv)

theorem qValsOK_parse_qs (q : List (String × String)) : qValsOK (parse_qs q) :=
  qValsOK_parse_qs_loop q [] (fun e he => by simp at he)

theorem qValsOK_setKey (d : QDict) (k v : String) (h : qValsOK d) (hv : v ≠ "") :
    qValsOK (setKey d k v) := by
  induction d with
  | nil =>
    intro e he
    simp only [setKey, List.mem_singleton] at he
    subst he
    refine ⟨by simp, ?_⟩
    intro v1 hv1
    rw [List.mem_singleton] at hv1
    subst hv1
    exact hv
  | cons e0 rest ih =>
    obtain ⟨k1, vs⟩ := e0
    have hrest : qValsOK rest := qValsOK_cons_tail _ _ h
    rw [setKey_cons]
    by_cases hk : k1 = k
    · rw [if_pos hk]
      intro e he
      rcases List.mem_cons.mp he with heq | hmem
      · subst heq
        refine ⟨by simp, ?_⟩
        intro v1 hv1
        rw [List.mem_singleton] at hv1
        subst hv1
        exact hv
      · exact hrest e hmem
    · rw [if_neg hk]
      intro e he
      rcases List.mem_cons.mp he with heq | hmem
      · subst heq
        exact h (k1, vs) (List.mem_cons_self _ _)
      · exact ih hrest e hmem

theorem qValsOK_applyFilters (d : QDict) (fs : List (String × String)) (h : qValsOK d)
    (hfs : ∀ p ∈ fs, p.2 ≠ "") : qValsOK (applyFilters d fs) := by
  induction fs generalizing d with
  | nil => exact h
  | cons p fs ih =>
    rw [applyFilters_cons]
    exact ih _ (qValsOK_setKey _ _ _ h (hfs p (List.mem_cons_self _ _)))
      (fun p1 hp1 => hfs p1 (List.mem_cons_of_mem _ hp1))

theorem parse_loop_frozen (ps : List (String × String)) (k : String) (vs : List String)
    (acc : QDict) (h : ∀ p ∈ ps, ¬ p.1 = k) :
    ps.foldl (fun d p => if p.2 = "" then d else insertPair d p.1 p.2) ((k, vs) :: acc) =
      (k, vs) :: ps.foldl (fun d p => if p.2 = "" then d else insertPair d p.1 p.2) acc := by
  induction ps generalizing acc with
  | nil => rfl
  | cons p ps ih =>
    simp only [List.foldl_cons]
    by_cases hv : p.2 = ""
    · rw [if_pos hv, if_pos hv]
      exact ih _ (fun p1 hp1 => h p1 (List.mem_cons_of_mem _ hp1))
    · rw [if_neg hv, if_neg hv]
      have hne : ¬ p.1 = k := h p (List.mem_cons_self _ _)
      have hstep : insertPair ((k, vs) :: acc) p.1 p.2 = (k, vs) :: insertPair acc p.1 p.2 := by
        rw [insertPair_cons, if_neg (fun heq => hne heq.symm)]
      rw [hstep]
      exact ih _ (fun p1 hp1 => h p1 (List.mem_cons_of_mem _ hp1))

theorem parse_loop_values (k : String) (vs : List String) (pre : List String)
    (hvs : ∀ v ∈ vs, v ≠ "") :
    (vs.map (fun v => (k, v))).foldl
        (fun d p => if p.2 = "" then d else insertPair d p.1 p.2) [(k, pre)] =
      [(k, pre ++ vs)] := by
  induction vs generalizing pre with
  | nil => simp
  | cons v vs ih =>
    simp only [List.map_cons, List.foldl_cons]
    rw [if_neg (hvs v (List.mem_cons_self _ _))]
    have hstep : insertPair [(k, pre)] k v = [(k, pre ++ [v])] := by
      rw [show ([(k, pre)] : QDict) = (k, pre) :: [] from rfl, insertPair_cons, if_pos rfl]
    rw [hstep, ih _ (fun v1 hv1 => hvs v1 (List.mem_cons_of_mem _ hv1))]
    simp

theorem parse_qs_urlencode (d : QDict) (hnd : (qKeys d).Nodup) (hv : qValsOK d) :
    parse_qs (urlencode_doseq d) = d := by
  induction d with
  | nil => rfl
  | cons e rest ih =>
    obtain ⟨k, vs⟩ := e
    rw [qKeys_cons, List.nodup_cons] at hnd
    obtain ⟨hvne, hvall⟩ := hv (k, vs) (List.mem_cons_self _ _)
    have hrest : qValsOK rest := qValsOK_cons_tail _ _ hv
    rw [urlencode_doseq_cons]
    rw [parse_qs, List.foldl_append]
    obtain ⟨v0, vs0, rfl⟩ : ∃ v0 vs0, vs = v0 :: vs0 := by
      cases vs with
      | nil => exact absurd rfl hvne
      | cons v0 vs0 => exact ⟨v0, vs0, rfl⟩
    have hv0 : v0 ≠ "" := hvall v0 (List.mem_cons_self _ _)
    have hfirst : ((v0 :: vs0).map (fun v => (k, v))).foldl
        (fun d p => if p.2 = "" then d else insertPair d p.1 p.2) [] = [(k, v0 :: vs0)] := by
      simp only [List.map_cons, List.foldl_cons]
      rw [if_neg hv0]
      rw [show insertPair [] k v0 = [(k, [v0])] from rfl]
      rw [parse_loop_values k vs0 [v0] (fun v1 hv1 => hvall v1 (List.mem_cons_of_mem _ hv1))]
      simp
    rw [hfirst]
    have hfrozen : ∀ p ∈ urlencode_doseq rest, ¬ p.1 = k := by
      intro p hp heq
      have hm := fst_mem_qKeys_of_mem_urlencode rest p hp
      rw [heq] at hm
      exact hnd.1 hm
    rw [parse_loop_frozen _ _ _ _ hfrozen]
    have htail := ih hnd.2 hrest
    rw [parse_qs] at htail
    rw [htail]

theorem mem_setKey_self (d : QDict) (k v : String) : (k, [v]) ∈ setKey d k v := by
  induction d with
  | nil => simp [setKey]
  | cons e rest ih =>
    obtain ⟨k1, vs⟩ := e
    rw [setKey_cons]
    by_cases h : k1 = k
    · subst h
      simp
    · rw [if_neg h]
      exact List.mem_cons_of_mem _ ih

theorem mem_setKey_of_ne (d : QDict) (k : String) (vs : List String) (k1 v1 : String)
    (hne : ¬ k1 = k) (h : (k, vs) ∈ d) : (k, vs) ∈ setKey d k1 v1 := by
  induction d with
  | nil => simp at h
  | cons e rest ih =>
    obtain ⟨ka, vsa⟩ := e
    rw [setKey_cons]
    rcases List.mem_cons.mp h with heq | hmem
    · have hka : ka = k := ((Prod.mk.injEq _ _ _ _).mp heq).1.symm
      have hcond : ¬ ka = k1 := by
        intro habs
        exact hne (by rw [← habs]; exact hka)
      rw [if_neg hcond]
      exact List.mem_cons.mpr (Or.inl heq)
    · by_cases hk : ka = k1
      · rw [if_pos hk]
        exact List.mem_cons_of_mem _ hmem
      · rw [if_neg hk]
        exact List.mem_cons_of_mem _ (ih hmem)

theorem mem_applyFilters_of_notmem (d : QDict) (fs : List (String × String)) (k : String)
    (vs : List String) (hk : k ∉ fs.map Prod.fst) (h : (k, vs) ∈ d) :
    (k, vs) ∈ applyFilters d fs := by
  induction fs generalizing d with
  | nil => exact h
  | cons p fs ih =>
    rw [List.map_cons, List.mem_cons] at hk
    push_neg at hk
    rw [applyFilters_cons]
    exact ih _ hk.2 (mem_setKey_of_ne _ _ _ _ _ (fun heq => hk.1 heq.symm) h)

theorem setKey_eq_self (d : QDict) (k v : String) (hnd : (qKeys d).Nodup)
    (h : (k, [v]) ∈ d) : setKey d k v = d := by
  induction d with
  | nil => simp at h
  | cons e rest ih =>
    obtain ⟨k1, vs⟩ := e
    rw [qKeys_cons, List.nodup_cons] at hnd
    rw [setKey_cons]
    by_cases hk : k1 = k
    · subst hk
      rcases List.mem_cons.mp h with heq | hmem
      · have hvs : vs = [v] := (Prod.mk.injEq _ _ _ _ |>.mp heq.symm).2
        rw [if_pos rfl, hvs]
      · exact absurd (fst_mem_qKeys rest k1 [v] hmem) hnd.1
    · rw [if_neg hk]
      rcases List.mem_cons.mp h with heq | hmem
      · exact absurd (Prod.mk.injEq _ _ _ _ |>.mp heq.symm).1 hk
      · rw [ih hnd.2 hmem]

theorem applyFilters_idem (d : QDict) (fs : List (String × String))
    (hnd : (qKeys d).Nodup) (hfs : (fs.map Prod.fst).Nodup) :
    applyFilters (applyFilters d fs) fs = applyFilters d fs := by
  induction fs generalizing d with
  | nil => rfl
  | cons p fs ih =>
    obtain ⟨k, v⟩ := p
    rw [List.map_cons, List.nodup_cons] at hfs
    rw [applyFilters_cons, applyFilters_cons]
    have h1 : (k, [v]) ∈ applyFilters (setKey d k v) fs :=
      mem_applyFilters_of_notmem _ _ _ _ hfs.1 (mem_setKey_self d k v)
    have h2 : (qKeys (applyFilters (setKey d k v) fs)).Nodup :=
      nodup_qKeys_applyFilters _ _ (nodup_qKeys_setKey _ _ _ hnd)
    rw [setKey_eq_self _ _ _ h2 h1]
    exact ih _ (nodup_qKeys_setKey _ _ _ hnd) hfs.2

theorem repair_filter (l : List (String × String)) (k : String) :
    ((l.filter (fun p => p.1 == k && !(p.2 == ""))).map Prod.snd).map (fun v => (k, v)) =
      l.filter (fun p => p.1 == k && !(p.2 == "")) := by
  induction l with
  | nil => rfl
  | cons p l ih =>
    rw [List.filter_cons]
    by_cases hp : (p.1 == k && !(p.2 == "")) = true
    · rw [if_pos hp, List.map_cons, List.map_cons, ih]
      have h1 : p.1 = k := beq_iff_eq.mp ((Bool.and_eq_true _ _).mp hp).1
      rw [show (k, p.2) = p from by rw [← h1]]
    · rw [if_neg hp, ih]

/-! ### Claims C3 and C5: filter composition -/

/-- Claim C3, counterexample.  As stated the claim is false on the code: a
pre-existing query parameter with an empty value (wire form a=) is not in the
FilterSet, yet composition drops it entirely, because parse_qs defaults to
keep_blank_values=False.  Here composing the FilterSet b maps to 9 onto a URL
with query a=, b=2 loses the parameter a altogether. -/
theorem c3_preservation_counterexample :
    (add_filters c3_url [("b", "9")]).query = [("b", "9")] ∧
    ("a", "") ∈ c3_url.query ∧
    ("a", "") ∉ (add_filters c3_url [("b", "9")]).query := by
  refine ⟨by decide, by decide, by decide⟩

/-- Claim C3, amended: composing a FilterSet onto a URL preserves every
pre-existing query parameter whose name is not in the FilterSet and whose
value is nonempty (name, value and per-name order; parameters with empty
values are dropped), and for every colliding name it replaces the whole value
list by the single filter value, producing exactly one occurrence of that
name. -/
theorem c3_preservation_amended (u : URLRec) (fs : List (String × String))
    (hfs : (fs.map Prod.fst).Nodup) :
    (∀ k, k ∉ fs.map Prod.fst →
      (add_filters u fs).query.filter (fun p => p.1 == k) =
        u.query.filter (fun p => p.1 == k && !(p.2 == ""))) ∧
    (∀ k v, (k, v) ∈ fs →
      (add_filters u fs).query.filter (fun p => p.1 == k) = [(k, v)]) := by
  have hq : (add_filters u fs).query =
      urlencode_doseq (applyFilters (parse_qs u.query) fs) := rfl
  have hnd : (qKeys (applyFilters (parse_qs u.query) fs)).Nodup :=
    nodup_qKeys_applyFilters _ _ (nodup_qKeys_parse_qs _)
  constructor
  · intro k hk
    rw [hq, urlencode_filter_eq _ _ hnd, lookupVs_applyFilters_notmem _ _ _ hk,
      lookupVs_parse_qs]
    exact repair_filter u.query k
  · intro k v hkv
    rw [hq, urlencode_filter_eq _ _ hnd, lookupVs_applyFilters_mem _ _ _ _ hfs hkv]
    simp

/-- Witness for the amended claim C3 on the URL with query a=1, b=2 and the
FilterSet b maps to 9: the untouched parameter a keeps its pair and the
colliding name b occurs exactly once, with the filter value. -/
theorem c3_preservation_amended_witness :
    (add_filters c3_url_w [("b", "9")]).query.filter (fun p => p.1 == "a") =
        c3_url_w.query.filter (fun p => p.1 == "a" && !(p.2 == "")) ∧
    (add_filters c3_url_w [("b", "9")]).query.filter (fun p => p.1 == "b") = [("b", "9")] :=
  ⟨(c3_preservation_amended c3_url_w [("b", "9")] (by decide)).1 "a" (by decide),
   (c3_preservation_amended c3_url_w [("b", "9")] (by decide)).2 "b" "9" (by decide)⟩

/-- Claim C5, counterexample.  As stated the claim is false on the code: with
a FilterSet carrying an empty value for a name that sits before another
parameter in the URL query, the first composition leaves the overwritten name
in place (wire form k=, a=1) while the second composition drops and
re-appends it (wire form a=1, k=), so composing twice differs from composing
once. -/
theorem c5_idempotent_counterexample :
    add_filters (add_filters c5_url [("k", "")]) [("k", "")] ≠
      add_filters c5_url [("k", "")] := by
  decide

/-- Claim C5, amended: filter composition is idempotent for every FilterSet
whose values are all nonempty (a FilterSet has unique names by definition;
the restriction on values is what the counterexample forces). -/
theorem c5_idempotent_amended (u : URLRec) (fs : List (String × String))
    (hfs : (fs.map Prod.fst).Nodup) (hv : ∀ p ∈ fs, p.2 ≠ "") :
    add_filters (add_filters u fs) fs = add_filters u fs := by
  have hnd : (qKeys (applyFilters (parse_qs u.query) fs)).Nodup :=
    nodup_qKeys_applyFilters _ _ (nodup_qKeys_parse_qs _)
  have hok : qValsOK (applyFilters (parse_qs u.query) fs) :=
    qValsOK_applyFilters _ _ (qValsOK_parse_qs _) hv
  have hq : urlencode_doseq (applyFilters (parse_qs
      (urlencode_doseq (applyFilters (parse_qs u.query) fs))) fs) =
      urlencode_doseq (applyFilters (parse_qs u.query) fs) := by
    rw [parse_qs_urlencode _ hnd hok, applyFilters_idem _ _ (nodup_qKeys_parse_qs _) hfs]
  show ({ u with query := urlencode_doseq (applyFilters (parse_qs
      (urlencode_doseq (applyFilters (parse_qs u.query) fs))) fs) } : URLRec) =
    { u with query := urlencode_doseq (applyFilters (parse_qs u.query) fs) }
  rw [hq]

/-- Witness for the amended claim C5: composing the default filter set twice
equals composing it once. -/
theorem c5_idempotent_amended_witness :
    add_filters (add_filters c5_url DEFAULT_FILTERS) DEFAULT_FILTERS =
      add_filters c5_url DEFAULT_FILTERS :=
  c5_idempotent_amended c5_url DEFAULT_FILTERS (by decide) (by decide)

/-! ### Claims C4 and C9: the median index -/

/-- Claim C4: for every nonempty row list of length n the median extractor
selects index floor((n + 1) / 2) - 1 (the clamp to zero never engages for
n at least one, so the value agrees with the plain formula), and for row
counts 1, 2, 3, 4, 5 the selected indices are 0, 0, 1, 1, 2. -/
theorem c4_median_index_formula (n : Nat) (h : 1 ≤ n) :
    median_index_of n = (n + 1) / 2 - 1 ∧
    median_index_of 1 = 0 ∧ median_index_of 2 = 0 ∧ median_index_of 3 = 1 ∧
    median_index_of 4 = 1 ∧ median_index_of 5 = 2 := by
  refine ⟨?_, by decide, by decide, by decide, by decide, by decide⟩
  simp only [median_index_of]
  split
  · omega
  · omega

/-- Witness for claim C4 at three rows. -/
theorem c4_median_index_formula_witness :
    median_index_of 3 = (3 + 1) / 2 - 1 ∧
    median_index_of 1 = 0 ∧ median_index_of 2 = 0 ∧ median_index_of 3 = 1 ∧
    median_index_of 4 = 1 ∧ median_index_of 5 = 2 :=
  c4_median_index_formula 3 (by decide)

/-- Claim C9: for a nonempty row list the integer index computed by
extract_median_price is nonnegative (so the clamp branch is unreachable) and
the clamped index is below the row count (so rows[median_index] is in
bounds). -/
theorem c9_median_index_in_bounds (rows : List Node) (h : rows ≠ []) :
    ¬ ((((rows.length : Int) + 1) / 2 - 1) < 0) ∧
      median_index_of rows.length < rows.length := by
  have hlen : 1 ≤ rows.length := List.length_pos.mpr h
  constructor
  · omega
  · simp only [median_index_of]
    split
    · omega
    · omega

/-- Witness for claim C9 on a one-row list. -/
theorem c9_median_index_in_bounds_witness :
    ¬ (((([Node.text "row"] : List Node).length : Int) + 1) / 2 - 1 < 0) ∧
      median_index_of ([Node.text "row"] : List Node).length <
        ([Node.text "row"] : List Node).length :=
  c9_median_index_in_bounds [Node.text "row"] (List.cons_ne_nil _ _)

/-! ### Claim C7: the immediate return of the locator -/

/-- Claim C7, counterexample.  As stated the claim is false on the code: the
immediate-return test is a substring test on the whole final URL string, so a
final URL whose path does not match the product-page pattern is still
returned immediately when its query string contains the pattern. -/
theorem c7_immediate_return_counterexample :
    find_product_url "q" c7_response = .ok c7_url ∧
    strContains c7_url.path PRODUCT_PATH_PATTERN = false ∧
    strContains (urlString c7_url) PRODUCT_PATH_PATTERN = true := by
  refine ⟨rfl, by decide, by decide⟩

/-- Claim C7, amended: after the search GET, the final URL is returned
immediately if and only if the whole final URL string (path and query string
alike) contains the product-page pattern; when it does not, the locator
proceeds with the remaining steps (status checks and selector scan). -/
theorem c7_immediate_return_amended (card_id : String) (r : Response) :
    (strContains (urlString r.url) PRODUCT_PATH_PATTERN = true →
      find_product_url card_id r = .ok r.url) ∧
    (strContains (urlString r.url) PRODUCT_PATH_PATTERN = false →
      find_product_url card_id r = locate_in_body card_id r) := by
  constructor
  · intro h
    simp [find_product_url, h]
  · intro h
    simp [find_product_url, h]

/-- Witness for the amended claim C7: a response whose final URL path does
match the pattern is returned immediately. -/
theorem c7_immediate_return_amended_witness :
    find_product_url "Charizard" c7_prod_response = .ok c7_prod_response.url :=
  (c7_immediate_return_amended "Charizard" c7_prod_response).1 (by decide)

/-! ### Claim C10: empty query field -/

/-- Claim C10: a JSON body whose query field equals the empty string is
treated exactly like a missing field: HTTP 400 with the missing-field error
body, and the pipeline is never consulted (the conclusion holds for every
pipeline, and coincides with the response for a body without the field). -/
theorem c10_empty_query_field (pipeline : String → Except PyExc (String × String × String))
    (data1 data2 : List (String × String))
    (h1 : jsonGet data1 "query" = some "") (h2 : jsonGet data2 "query" = none) :
    get_prices_route pipeline data1 = .ok (400, [("error", "Missing \x27query\x27 field")]) ∧
    get_prices_route pipeline data1 = get_prices_route pipeline data2 := by
  have e1 : get_prices_route pipeline data1 =
      .ok (400, [("error", "Missing \x27query\x27 field")]) := by
    unfold get_prices_route
    rw [h1]
    rfl
  have e2 : get_prices_route pipeline data2 =
      .ok (400, [("error", "Missing \x27query\x27 field")]) := by
    unfold get_prices_route
    rw [h2]
  exact ⟨e1, e1.trans e2.symm⟩

/-- Witness for claim C10 with a concrete pipeline and the body carrying an
empty query field. -/
theorem c10_empty_query_field_witness :
    get_prices_route c10_pipeline [("query", "")] =
        .ok (400, [("error", "Missing \x27query\x27 field")]) ∧
    get_prices_route c10_pipeline [("query", "")] = get_prices_route c10_pipeline [] :=
  c10_empty_query_field c10_pipeline [("query", "")] [] (by decide) (by decide)

/-! ### Claim C1: blocked searches -/

/-- Claim C1 (the code contradicts it): on a 403 search response whose final
URL lacks the product-page pattern, the locator does fail with the Blocked
error, but that error is SystemExit, which is not in the Exception class, so
the except-Exception handler of the route does not catch it and no HTTP 500
JSON response is produced: the failure escapes the handler instead. -/
theorem c1_blocked_systemexit_escapes :
    find_product_url "Charizard" c1_response =
        .error (.systemExit "403 Forbidden : accès bloqué.") ∧
    PyExc.isException (.systemExit "403 Forbidden : accès bloqué.") = false ∧
    get_prices_route
        (fun q => get_prices_for_query q c1_response (fun _ => Node.text ""))
        [("query", "Charizard")] =
      .error (.systemExit "403 Forbidden : accès bloqué.") := by
  refine ⟨rfl, rfl, rfl⟩

/-! ### Lemmas on documents -/

theorem mem_forestStrings (t : String) (ns : List Node) :
    t ∈ forestStrings ns ↔ ∃ n ∈ ns, t ∈ nodeStrings n := by
  induction ns with
  | nil => simp [forestStrings]
  | cons n ns ih =>
    rw [forestStrings, List.mem_append, ih]
    constructor
    · rintro (h | ⟨m, hm, ht⟩)
      · exact ⟨n, List.mem_cons_self _ _, h⟩
      · exact ⟨m, List.mem_cons_of_mem _ hm, ht⟩
    · rintro ⟨m, hm, ht⟩
      rcases List.mem_cons.mp hm with rfl | hm
      · exact Or.inl ht
      · exact Or.inr ⟨m, hm, ht⟩

mutual
theorem findStr_sub (p : String → Bool) (n : Node) (anc : List Node) (s : String)
    (chain : List Node) (h : findStr p n anc = some (s, chain)) :
    s ∈ nodeStrings n ∧ ∀ c ∈ chain, c ∈ anc ∨ ∀ t ∈ nodeStrings c, t ∈ nodeStrings n := by
  cases n with
  | text s0 =>
    rw [findStr] at h
    by_cases hp : p s0 = true
    · rw [if_pos hp] at h
      have heq := Option.some.inj h
      obtain ⟨rfl, rfl⟩ : s0 = s ∧ anc = chain :=
        ⟨congrArg Prod.fst heq, congrArg Prod.snd heq⟩
      exact ⟨by simp [nodeStrings], fun c hc => Or.inl hc⟩
    · rw [if_neg hp] at h
      exact absurd h (by simp)
  | elem tg cl ch =>
    rw [findStr] at h
    obtain ⟨⟨m, hm, hsm⟩, hchain⟩ := findStrF_sub p ch (.elem tg cl ch :: anc) s chain h
    refine ⟨?_, ?_⟩
    · rw [show nodeStrings (.elem tg cl ch) = forestStrings ch from rfl, mem_forestStrings]
      exact ⟨m, hm, hsm⟩
    · intro c hc
      rcases hchain c hc with hca | ⟨m1, hm1, hsub⟩
      · rcases List.mem_cons.mp hca with rfl | hca
        · exact Or.inr (fun t ht => ht)
        · exact Or.inl hca
      · refine Or.inr (fun t ht => ?_)
        rw [show nodeStrings (.elem tg cl ch) = forestStrings ch from rfl, mem_forestStrings]
        exact ⟨m1, hm1, hsub t ht⟩

theorem findStrF_sub (p : String → Bool) (ns : List Node) (anc : List Node) (s : String)
    (chain : List Node) (h : findStrF p ns anc = some (s, chain)) :
    (∃ m ∈ ns, s ∈ nodeStrings m) ∧
      ∀ c ∈ chain, c ∈ anc ∨ ∃ m ∈ ns, ∀ t ∈ nodeStrings c, t ∈ nodeStrings m := by
  cases ns with
  | nil =>
    rw [findStrF] at h
    exact absurd h (by simp)
  | cons n ns =>
    rw [findStrF] at h
    cases hn : findStr p n anc with
    | some r =>
      rw [hn] at h
      obtain rfl : r = (s, chain) := Option.some.inj h
      obtain ⟨hs, hchain⟩ := findStr_sub p n anc s chain hn
      refine ⟨⟨n, List.mem_cons_self _ _, hs⟩, fun c hc => ?_⟩
      rcases hchain c hc with hca | hsub
      · exact Or.inl hca
      · exact Or.inr ⟨n, List.mem_cons_self _ _, hsub⟩
    | none =>
      rw [hn] at h
      obtain ⟨⟨m, hm, hs⟩, hchain⟩ := findStrF_sub p ns anc s chain h
      refine ⟨⟨m, List.mem_cons_of_mem _ hm, hs⟩, fun c hc => ?_⟩
      rcases hchain c hc with hca | ⟨m1, hm1, hsub⟩
      · exact Or.inl hca
      · exact Or.inr ⟨m1, List.mem_cons_of_mem _ hm1, hsub⟩
end

mutual
theorem findDiv_sub (cls : String) (n : Node) (c : Node) (h : findDiv cls n = some c) :
    ∀ t ∈ nodeStrings c, t ∈ nodeStrings n := by
  cases n with
  | text s =>
    rw [findDiv] at h
    exact absurd h (by simp)
  | elem tg cl ch =>
    rw [findDiv] at h
    intro t ht
    rw [show nodeStrings (.elem tg cl ch) = forestStrings ch from rfl]
    exact findDivF_sub cls ch c h t ht

theorem findDivF_sub (cls : String) (ns : List Node) (c : Node) (h : findDivF cls ns = some c) :
    ∀ t ∈ nodeStrings c, t ∈ forestStrings ns := by
  cases ns with
  | nil =>
    rw [findDivF] at h
    exact absurd h (by simp)
  | cons n ns =>
    rw [findDivF] at h
    intro t ht
    rw [show forestStrings (n :: ns) = nodeStrings n ++ forestStrings ns from rfl,
      List.mem_append]
    by_cases hm : nodeMatchesDiv cls n = true
    · rw [if_pos hm] at h
      obtain rfl : n = c := Option.some.inj h
      exact Or.inl ht
    · rw [if_neg hm] at h
      cases hd : findDiv cls n with
      | some r =>
        rw [hd] at h
        obtain rfl : r = c := Option.some.inj h
        exact Or.inl (findDiv_sub cls n _ hd t ht)
      | none =>
        rw [hd] at h
        exact Or.inr (findDivF_sub cls ns c h t ht)
end

mutual
theorem descendantDivs_sub (cls : String) (n : Node) (c : Node)
    (h : c ∈ descendantDivs cls n) : ∀ t ∈ nodeStrings c, t ∈ nodeStrings n := by
  cases n with
  | text s =>
    rw [descendantDivs] at h
    exact absurd h (by simp)
  | elem tg cl ch =>
    rw [descendantDivs] at h
    intro t ht
    rw [show nodeStrings (.elem tg cl ch) = forestStrings ch from rfl]
    exact descendantDivsF_sub cls ch c h t ht

theorem descendantDivsF_sub (cls : String) (ns : List Node) (c : Node)
    (h : c ∈ descendantDivsF cls ns) : ∀ t ∈ nodeStrings c, t ∈ forestStrings ns := by
  cases ns with
  | nil =>
    rw [descendantDivsF] at h
    exact absurd h (by simp)
  | cons n ns =>
    rw [descendantDivsF, List.mem_append, List.mem_append] at h
    intro t ht
    rw [show forestStrings (n :: ns) = nodeStrings n ++ forestStrings ns from rfl,
      List.mem_append]
    rcases h with (h | h) | h
    · by_cases hm : nodeMatchesDiv cls n = true
      · rw [if_pos hm, List.mem_singleton] at h
        subst h
        exact Or.inl ht
      · rw [if_neg hm] at h
        exact absurd h (by simp)
    · exact Or.inl (descendantDivs_sub cls n c h t ht)
    · exact Or.inr (descendantDivsF_sub cls ns c h t ht)
end

theorem direct_child_divs_sub (n : Node) (c : Node) (h : c ∈ direct_child_divs n) :
    ∀ t ∈ nodeStrings c, t ∈ nodeStrings n := by
  cases n with
  | text s =>
    rw [direct_child_divs] at h
    exact absurd h (by simp)
  | elem tg cl ch =>
    rw [direct_child_divs] at h
    have hc : c ∈ ch := List.mem_of_mem_filter h
    intro t ht
    rw [show nodeStrings (.elem tg cl ch) = forestStrings ch from rfl]
    exact (mem_forestStrings t ch).mpr ⟨c, hc, ht⟩

theorem isInfixOfB_cons (pp : List Char) (c : Char) (t : List Char)
    (h : isInfixOfB pp t = true) : isInfixOfB pp (c :: t) = true := by
  rw [isInfixOfB, h]
  simp

theorem isInfixOfB_append_right (pp l s : List Char) (h : isInfixOfB pp l = true) :
    isInfixOfB pp (l ++ s) = true := by
  induction l with
  | nil =>
    rw [isInfixOfB] at h
    rw [List.isEmpty_iff] at h
    subst h
    cases s with
    | nil => rfl
    | cons c t =>
      rw [List.nil_append, isInfixOfB]
      simp [List.isPrefixOf]
  | cons c t ih =>
    rw [isInfixOfB, Bool.or_eq_true] at h
    rw [List.cons_append, isInfixOfB, Bool.or_eq_true]
    rcases h with h | h
    · left
      rw [List.isPrefixOf_iff_prefix] at h ⊢
      exact h.trans (by rw [← List.cons_append]; exact List.prefix_append _ _)
    · right
      exact ih h

theorem isInfixOfB_append_left (pp s l : List Char) (h : isInfixOfB pp l = true) :
    isInfixOfB pp (s ++ l) = true := by
  induction s with
  | nil => simpa using h
  | cons c t ih => exact isInfixOfB_cons pp c (t ++ l) ih

theorem isInfixOfB_of_infix (pp l1 l2 : List Char) (hsub : l1 <:+: l2)
    (h : isInfixOfB pp l1 = true) : isInfixOfB pp l2 = true := by
  obtain ⟨s, t, rfl⟩ := hsub
  rw [List.append_assoc]
  exact isInfixOfB_append_left pp s (l1 ++ t) (isInfixOfB_append_right pp l1 t h)

theorem stripChars_within (l : List Char) : stripChars l <:+: l := by
  have h1 : l.dropWhile isPySpace <:+ l := List.dropWhile_suffix _
  have h2 : (l.dropWhile isPySpace).reverse.dropWhile isPySpace <:+
      (l.dropWhile isPySpace).reverse := List.dropWhile_suffix _
  have h3 : ((l.dropWhile isPySpace).reverse.dropWhile isPySpace).reverse <+:
      l.dropWhile isPySpace := by
    rw [show l.dropWhile isPySpace = (l.dropWhile isPySpace).reverse.reverse by simp]
    rw [List.reverse_prefix]
    simpa using h2
  exact List.IsInfix.trans h3.isInfix h1.isInfix

theorem strContains_pyStrip (t nd : String) (h : strContains (pyStrip t) nd = true) :
    strContains t nd = true := by
  have h1 : isInfixOfB nd.toList (stripChars t.toList) = true := h
  exact isInfixOfB_of_infix nd.toList _ _ (stripChars_within t.toList) h1

theorem getD_mem {α : Type} (l : List α) (i : Nat) (d : α) (h : i < l.length) :
    l.getD i d ∈ l := by
  induction l generalizing i with
  | nil => simp at h
  | cons a l ih =>
    cases i with
    | zero =>
      rw [List.getD_cons_zero]
      exact List.mem_cons_self _ _
    | succ i =>
      rw [List.getD_cons_succ]
      exact List.mem_cons_of_mem _ (ih i (by simpa using h))

theorem median_index_of_lt (n : Nat) (h : 1 ≤ n) : median_index_of n < n := by
  simp only [median_index_of]
  split
  · omega
  · omega

theorem scanPrices_eq_none_iff (l : List String) :
    scanPrices l = none ↔ ∀ t ∈ l, strContains t "€" = true → priceSearch t = none := by
  induction l with
  | nil => simp [scanPrices]
  | cons t l ih =>
    rw [scanPrices]
    by_cases h : strContains t "€" = true
    · rw [if_pos h]
      cases hm : priceSearch t with
      | some m =>
        simp only [hm]
        constructor
        · intro habs
          simp at habs
        · intro hall
          have hc := hall t (List.mem_cons_self _ _) h
          rw [hm] at hc
          simp at hc
      | none =>
        simp only [hm]
        rw [ih]
        constructor
        · intro hall t1 ht1 he
          rcases List.mem_cons.mp ht1 with rfl | hmem
          · exact hm
          · exact hall t1 hmem he
        · intro hall t1 ht1 he
          exact hall t1 (List.mem_cons_of_mem _ ht1) he
    · rw [if_neg h, ih]
      constructor
      · intro hall t1 ht1 he
        rcases List.mem_cons.mp ht1 with rfl | hmem
        · exact absurd he h
        · exact hall t1 hmem he
      · intro hall t1 ht1 he
        exact hall t1 (List.mem_cons_of_mem _ ht1) he

theorem anchor_attempt_eq_none (doc : Node)
    (h : ∀ t ∈ nodeStrings doc, strContains t "€" = false) (a : String) :
    anchor_attempt doc a = none := by
  rw [anchor_attempt]
  cases hf : findStr (fun t => strContains (casefold t) a) doc [] with
  | none => rfl
  | some r =>
    obtain ⟨s, chain⟩ := r
    dsimp only
    obtain ⟨hs, hchain⟩ := findStr_sub _ doc [] s chain hf
    have hcont : ∀ cont : Node, cont ∈ chain ∨ cont = Node.text s →
        ∀ t ∈ nodeStrings cont, strContains t "€" = false := by
      intro cont hcase t ht
      rcases hcase with hc | rfl
      · rcases hchain cont hc with habs | hsub
        · simp at habs
        · exact h t (hsub t ht)
      · have hts : t = s := by simpa [nodeStrings] using ht
        subst hts
        exact h t hs
    cases hsca : smallest_common_ancestor_with_keywords chain PRICE_TREND_ANCHORS with
    | some c =>
      dsimp only
      have hmem : c ∈ chain :=
        List.mem_of_find?_eq_some
          (show chain.find? _ = some c from hsca)
      have hfilter : (nodeStrings c).filter (fun t => strContains t "€") = [] := by
        rw [List.filter_eq_nil_iff]
        intro t ht
        rw [hcont c (Or.inl hmem) t ht]
        simp
      simp [hfilter]
    | none =>
      dsimp only
      cases chain with
      | nil =>
        have hfilter : (nodeStrings (Node.text s)).filter (fun t => strContains t "€") = [] := by
          rw [List.filter_eq_nil_iff]
          intro t ht
          rw [hcont (Node.text s) (Or.inr rfl) t ht]
          simp
        simp [hfilter]
      | cons c0 cs =>
        have hfilter : (nodeStrings c0).filter (fun t => strContains t "€") = [] := by
          rw [List.filter_eq_nil_iff]
          intro t ht
          rw [hcont c0 (Or.inl (List.mem_cons_self _ _)) t ht]
          simp
        simp [hfilter]

theorem extract_lowest_price_eq_none (doc : Node)
    (h : ∀ t ∈ nodeStrings doc, strContains t "€" = false) :
    extract_lowest_price doc = none := by
  have hloop : ∀ l : List String, loopAnchors doc l = none := by
    intro l
    induction l with
    | nil => rfl
    | cons a l ih =>
      rw [loopAnchors, anchor_attempt_eq_none doc h a]
      exact ih
  have hscan : scanPrices (nodeStrings doc) = none := by
    rw [scanPrices_eq_none_iff]
    intro t ht he
    simp [h t ht] at he
  rw [extract_lowest_price, hloop PRICE_TREND_ANCHORS]
  exact hscan

theorem median_rows_none (doc : Node) (rows : List Node)
    (h : ∀ t ∈ nodeStrings doc, strContains t "€" = false)
    (hsub : ∀ r ∈ rows, ∀ t ∈ nodeStrings r, t ∈ nodeStrings doc) :
    (if rows.isEmpty then none
     else (((stripped_strings (rows.getD (median_index_of rows.length) (.text ""))).filter
        (fun s => strContains s "€")).map pyStrip).head?) = (none : Option String) := by
  by_cases he : rows.isEmpty
  · rw [if_pos he]
  · rw [if_neg he]
    have hlen : 1 ≤ rows.length := by
      cases rows with
      | nil => simp at he
      | cons r rs => simp
    have hrmem : rows.getD (median_index_of rows.length) (.text "") ∈ rows :=
      getD_mem rows _ _ (median_index_of_lt rows.length hlen)
    have hfilter : (stripped_strings (rows.getD (median_index_of rows.length) (.text ""))).filter
        (fun s => strContains s "€") = [] := by
      rw [List.filter_eq_nil_iff]
      intro s hsm
      rw [stripped_strings] at hsm
      have hsm2 := List.mem_of_mem_filter hsm
      rw [List.mem_map] at hsm2
      obtain ⟨t, ht, rfl⟩ := hsm2
      intro habs
      have ht2 : strContains t "€" = true :=
        strContains_pyStrip t "€" habs
      rw [h t (hsub _ hrmem t ht)] at ht2
      exact absurd ht2 (by simp)
    rw [hfilter]
    rfl

theorem extract_median_price_eq_none (doc : Node)
    (h : ∀ t ∈ nodeStrings doc, strContains t "€" = false) :
    extract_median_price doc = none := by
  rw [extract_median_price]
  cases hfd : findDiv "table-body" doc with
  | none => rfl
  | some container =>
    dsimp only
    have hcsub := findDiv_sub "table-body" doc container hfd
    have hsub : ∀ r ∈ (if (direct_child_divs container).isEmpty
        then descendantDivs "article-row" container else direct_child_divs container),
        ∀ t ∈ nodeStrings r, t ∈ nodeStrings doc := by
      by_cases h0 : (direct_child_divs container).isEmpty
      · rw [if_pos h0]
        intro r hr t ht
        exact hcsub t (descendantDivs_sub "article-row" container r hr t ht)
      · rw [if_neg h0]
        intro r hr t ht
        exact hcsub t (direct_child_divs_sub container r hr t ht)
    exact median_rows_none doc _ h hsub

/-! ### Claim C2: the sentinel -/

/-- Claim C2: on a document with no euro-marked text anywhere both extractors
return the Python None, which the orchestrator maps to exactly the string
N/A (never the empty string: the or-default also converts an empty string),
and the route response carries all three fields with both price fields equal
to the sentinel. -/
theorem c2_sentinel_consistency (doc : Node) (sresp : Response)
    (fetch : String → Node) (q : String) (pu : URLRec)
    (hdoc : ∀ t ∈ nodeStrings doc, strContains t "€" = false)
    (hfetch : ∀ u, ∀ t ∈ nodeStrings (fetch u), strContains t "€" = false)
    (hfind : find_product_url q sresp = .ok pu) (hq : ¬ q = "") :
    extract_lowest_price doc = none ∧ extract_median_price doc = none ∧
    py_or_na (extract_lowest_price doc) = "N/A" ∧
    py_or_na (extract_median_price doc) = "N/A" ∧
    get_prices_route (fun c => get_prices_for_query c sresp fetch) [("query", q)] =
      .ok (200, [("lowest", "N/A"), ("median", "N/A"),
                 ("url", urlString (add_filters pu DEFAULT_FILTERS))]) := by
  have hl := extract_lowest_price_eq_none doc hdoc
  have hm := extract_median_price_eq_none doc hdoc
  refine ⟨hl, hm, by rw [hl]; rfl, by rw [hm]; rfl, ?_⟩
  have hpipe : get_prices_for_query q sresp fetch =
      .ok ("N/A", "N/A", urlString (add_filters pu DEFAULT_FILTERS)) := by
    rw [get_prices_for_query, hfind]
    dsimp only
    rw [extract_lowest_price_eq_none _ (hfetch _), extract_median_price_eq_none _ (hfetch _)]
    rfl
  have hj : jsonGet [("query", q)] "query" = some q := rfl
  rw [get_prices_route, hj]
  dsimp only
  rw [if_neg hq, hpipe]

/-- Witness for claim C2: a currency-free document containing an anchor
phrase, a search that resolves immediately, and a transport always returning
that document. -/
theorem c2_sentinel_consistency_witness :
    extract_lowest_price c2_doc = none ∧ extract_median_price c2_doc = none ∧
    py_or_na (extract_lowest_price c2_doc) = "N/A" ∧
    py_or_na (extract_median_price c2_doc) = "N/A" ∧
    get_prices_route (fun c => get_prices_for_query c c2_response (fun _ => c2_doc))
        [("query", "Pikachu")] =
      .ok (200, [("lowest", "N/A"), ("median", "N/A"),
                 ("url", urlString (add_filters c2_response.url DEFAULT_FILTERS))]) :=
  c2_sentinel_consistency c2_doc c2_response (fun _ => c2_doc) "Pikachu" c2_response.url
    (by decide)
    (fun u => (by decide : ∀ t ∈ nodeStrings c2_doc, strContains t "€" = false))
    rfl (by decide)

/-! ### Claim C6: anchor priority -/

/-- Claim C6, counterexample.  As stated the claim is false on the code: the
anchor loop does not stop at the first anchor phrase found in the text; when
the bounded container of that anchor yields no price the loop moves on to
later anchors.  In this document both the French and the English phrase are
present, the French phrase is the first configured entry and is found, yet
its attempt produces nothing and the extractor resolves through the English
entry instead. -/
theorem c6_anchor_priority_counterexample :
    PRICE_TREND_ANCHORS.head? = some "tendance des prix" ∧
    "price trend" ∈ PRICE_TREND_ANCHORS ∧
    (nodeStrings c6_doc).any (fun t => strContains (casefold t) "tendance des prix") = true ∧
    (nodeStrings c6_doc).any (fun t => strContains (casefold t) "price trend") = true ∧
    anchor_attempt c6_doc "tendance des prix" = none ∧
    extract_lowest_price c6_doc = some "10,50 €" :=
  ⟨rfl, by decide, by decide, by decide, by decide, by decide⟩

/-- Claim C6, amended: the anchors are checked in the fixed configured order
and the first entry whose bounded container yields a price wins; in
particular, whenever the first configured entry (the French price-trend
phrase) yields a price from its container, that price is the result and no
later entry is consulted, even if the English phrase is also present. -/
theorem c6_anchor_priority_amended (root : Node) (p : String)
    (_hfr : (nodeStrings root).any (fun t => strContains (casefold t) "tendance des prix") = true)
    (_hen : (nodeStrings root).any (fun t => strContains (casefold t) "price trend") = true)
    (h : anchor_attempt root "tendance des prix" = some p) :
    extract_lowest_price root = some p := by
  have hloop : loopAnchors root PRICE_TREND_ANCHORS = some p := by
    rw [show PRICE_TREND_ANCHORS = "tendance des prix" :: PRICE_TREND_ANCHORS.tail from rfl]
    rw [loopAnchors, h]
  rw [extract_lowest_price, hloop]

/-- Witness for the amended claim C6: in a document holding both phrases
where the French container carries a price, that price is returned. -/
theorem c6_anchor_priority_amended_witness :
    extract_lowest_price c6_doc2 = some "3,00 €" :=
  c6_anchor_priority_amended c6_doc2 "3,00 €" (by decide) (by decide) (by decide)

/-! ### Claim C8: the document-wide fallback -/

/-- Claim C8, counterexample.  As stated the claim is false on the code: the
fallback does not return the first euro-marked text fragment itself; it
returns only the trimmed regex match inside that fragment.  Here no anchor
matches, the only euro-marked fragment is the whole string with a prefix
before the price, and the extractor returns just the matched price text. -/
theorem c8_fallback_counterexample :
    loopAnchors c8_doc PRICE_TREND_ANCHORS = none ∧
    (nodeStrings c8_doc).filter (fun t => strContains t "€") = ["frais: 2,50 €"] ∧
    extract_lowest_price c8_doc = some "2,50 €" ∧
    some "frais: 2,50 €" ≠ some ("2,50 €" : String) :=
  ⟨by decide, by decide, by decide, by decide⟩

/-- Claim C8, amended: when no anchor attempt yields a price (no anchor
matched any text node, or no price pattern matched within any bounded
container), the extractor falls back to the document-wide scan, which walks
the euro-marked fragments in document order and returns the trimmed price
match from the first fragment in which the pattern matches; the sentinel
(None, surfaced as N/A) arises exactly when no euro-marked fragment matches
the pattern. -/
theorem c8_fallback_amended (root : Node)
    (h : ∀ a ∈ PRICE_TREND_ANCHORS, anchor_attempt root a = none) :
    extract_lowest_price root = scanPrices (nodeStrings root) ∧
    (extract_lowest_price root = none ↔
      ∀ t ∈ nodeStrings root, strContains t "€" = true → priceSearch t = none) := by
  have hloop : ∀ l : List String, (∀ a ∈ l, anchor_attempt root a = none) →
      loopAnchors root l = none := by
    intro l
    induction l with
    | nil => intro _; rfl
    | cons a l ih =>
      intro hl
      rw [loopAnchors, hl a (List.mem_cons_self _ _)]
      exact ih (fun a1 ha1 => hl a1 (List.mem_cons_of_mem _ ha1))
  have he : extract_lowest_price root = scanPrices (nodeStrings root) := by
    rw [extract_lowest_price, hloop PRICE_TREND_ANCHORS h]
  exact ⟨he, by rw [he, scanPrices_eq_none_iff]⟩

/-- Witness for the amended claim C8 on the anchor-free document: the result
is the fallback scan, and it is not the sentinel since a fragment matches. -/
theorem c8_fallback_amended_witness :
    extract_lowest_price c8_doc = scanPrices (nodeStrings c8_doc) ∧
    (extract_lowest_price c8_doc = none ↔
      ∀ t ∈ nodeStrings c8_doc, strContains t "€" = true → priceSearch t = none) :=
  c8_fallback_amended c8_doc (by decide)
